import Mathlib

/-!
# Verification of the microstructure-ve input-deck generator

A shallow embedding, in Lean 4, of the core of `microstructure_ve.py`:
the mesh builder (`GridNodes`, `RectangularElements`), the boundary
node-set extractor (`sides`, `NodeSet.from_side_name`), the periodic
boundary constraint builder (`PeriodicBoundaryCondition.__post_init__`
together with `EqualityEquation`/`DriveEquation`), the element-set
partitioner (`ElementSet.from_intph_image`), the interphase classifier
(`assign_intph`, `periodic_assign_intph`), and the viscoelastic
material transformer (`ViscoelasticMaterial.apply_shift`,
`normalize_modulus`, `to_inp`).

Conventions used throughout:
* A microstructure image of shape `(H, W)` is a total function
  `ℕ → ℕ → ℕ` together with explicit bounds `H`, `W`; only values at
  indices `r < H`, `c < W` matter.
* ABAQUS node and element ids are 1-based, row-major, as in the source
  (`1 + np.ravel_multi_index(...)`).
* The `uint8` accumulator of `assign_intph` (`.view("u1")` followed by
  in-place `+=`) is modelled by a final `% 256`, which agrees with
  wrapping at every step because sums of naturals commute with `% 256`.
* Real (`float`) computations of the material transformer are modelled
  over `ℝ`, exact real arithmetic.
-/

namespace MicroVE

/-! ## Mesh builder: `GridNodes` / `RectangularElements`

`GridNodes.from_intph_img` gives the node grid shape `(H+1, W+1)` for an
image of shape `(H, W)`.  Node ids follow
`1 + np.ravel_multi_index(np.indices(shape), shape)`: row-major, 1-based. -/

/-- Node id of grid node `(r, c)` in an `(H+1) × (W+1)` node grid:
`all_nodes[r][c] = 1 + r * (W+1) + c`. -/
def nodeId (W r c : ℕ) : ℕ := 1 + r * (W + 1) + c

/-- The serialized connectivity record of the element at pixel `(r, c)`
(`RectangularElements.to_inp` writes `tn, kn, rn, trn` after the element
number, where `tn = all_nodes[1:, :-1]`, `kn = all_nodes[:-1, :-1]`,
`rn = all_nodes[:-1, 1:]`, `trn = all_nodes[1:, 1:]` at flat index
`(r, c)`). -/
def elemRecord (W r c : ℕ) : List ℕ :=
  [nodeId W (r + 1) c, nodeId W r c, nodeId W r (c + 1), nodeId W (r + 1) (c + 1)]

/-- All serialized element lines of `RectangularElements.to_inp`:
`zip(element_nums, top_nodes, key_nodes, right_nodes, topright_nodes)`
with `element_nums = range(1, 1 + H*W)` and the four node arrays raveled
row-major over pixels.  Each entry is `(element number, connectivity)`. -/
def elemLines (H W : ℕ) : List (ℕ × List ℕ) :=
  (List.range H).flatMap fun r =>
    (List.range W).map fun c => (1 + r * W + c, elemRecord W r c)

/-! ## Boundary node sets: `sides` / `NodeSet.from_side_name`

Each entry of the `sides` table is a 2-D slice of the node grid;
`NodeSet.from_side_name` ravels the sliced row/column index arrays in
raster (row-major) order and converts them to 1-based node ids.  We
embed each slice as the raster-ordered list of `(row, col)` pairs it
selects from an `(H+1) × (W+1)` grid. -/

/-- The `(row, col)` pairs selected by the slice `sides[name]`, in raster
order, over the `(H+1) × (W+1)` node grid.  `np.s_[:, 0]` is every row at
column 0; `np.s_[0, 1:-1]` is row 0 at columns `1 .. W-1`; etc. -/
def sideCells (name : String) (H W : ℕ) : List (ℕ × ℕ) :=
  if name = "LeftSurface" then (List.range (H + 1)).map fun r => (r, 0)
  else if name = "RightSurface" then (List.range (H + 1)).map fun r => (r, W)
  else if name = "BotmSurface" then (List.range' 1 (W - 1)).map fun c => (0, c)
  else if name = "TopSurface" then (List.range' 1 (W - 1)).map fun c => (H, c)
  else if name = "BotmLeft" then [(0, 0)]
  else if name = "TopLeft" then [(H, 0)]
  else if name = "BotmRight" then [(0, W)]
  else if name = "TopRight" then [(H, W)]
  else []

/-- Embedding of `NodeSet.from_side_name name` over an `(H+1) × (W+1)` node grid:
the raster-ordered 1-based node ids of the slice `sides[name]`. -/
def nsetInds (name : String) (H W : ℕ) : List ℕ :=
  (sideCells name H W).map fun p => nodeId W p.1 p.2

/-! ## Periodic boundary constraint builder: `PeriodicBoundaryCondition`

`__post_init__` creates, in order, the driven set (`RightSurface`) and
then the six surface/corner sets of `node_pairs`.  `NodeSet` is declared
`@dataclass(eq=False)`, so the membership test `driven_nset not in p`
compares by object identity; we model identity with a creation-order
handle. -/

/-- A named boundary node set with its creation-order handle (object
identity surrogate) and raster-ordered node ids. -/
structure NSet where
  handle : ℕ
  name : String
  inds : List ℕ
deriving DecidableEq, Repr

/-- The sets created by `PeriodicBoundaryCondition.__post_init__`, in
creation order: `driven_nset = make_set("RightSurface")` first, then the
six entries of `node_pairs` left to right. -/
def pbcDriven (H W : ℕ) : NSet := ⟨0, "RightSurface", nsetInds "RightSurface" H W⟩

/-- The `node_pairs` list: `[[LeftSurface, driven], [BotmSurface, TopSurface],
[BotmRight, TopRight]]`, with creation handles 1..5 for the five sets
created inside the list literal. -/
def pbcNodePairs (H W : ℕ) : List (NSet × NSet) :=
  [(⟨1, "LeftSurface", nsetInds "LeftSurface" H W⟩, pbcDriven H W),
   (⟨2, "BotmSurface", nsetInds "BotmSurface" H W⟩,
    ⟨3, "TopSurface", nsetInds "TopSurface" H W⟩),
   (⟨4, "BotmRight", nsetInds "BotmRight" H W⟩,
    ⟨5, "TopRight", nsetInds "TopRight" H W⟩)]

/-- One serialized `*Equation` term: referenced set (by its printed
name), degree of freedom, coefficient. -/
def EqTerm := String × ℕ × ℤ
deriving DecidableEq, Repr

/-- The two terms written by `EqualityEquation.to_inp`:
`nsets[0], dof, 1.` then `nsets[1], dof, -1.`. -/
def equalityTerms (p : NSet × NSet) (dof : ℕ) : List EqTerm :=
  [(p.1.name, dof, 1), (p.2.name, dof, -1)]

/-- The three terms written by `DriveEquation.to_inp`:
`nsets[0], dof, 1.`, `nsets[1], dof, -1.`, `drive_node, dof, 1.`. -/
def driveTerms (p : NSet × NSet) (dof : ℕ) (ctrl : String) : List EqTerm :=
  [(p.1.name, dof, 1), (p.2.name, dof, -1), (ctrl, dof, 1)]

/-- The `eq_pairs` of `PeriodicBoundaryCondition.__post_init__` for a 2-D
grid (`ndim = len(self.nodes.shape) = 2`), each equation rendered as its
term list.  `ctrl` is the printed name of the control node `self.nset`;
`x in range(first_dof - 1, last_dof)` is `first_dof - 1 ≤ x ∧ x < last_dof`
(ℕ truncated subtraction agrees with Python for `first_dof ≥ 0`). -/
def pbcEqPairs (H W first_dof last_dof : ℕ) (ctrl : String) : List (List (List EqTerm)) :=
  (pbcNodePairs H W).map fun p =>
    if (pbcDriven H W).handle ≠ p.1.handle ∧ (pbcDriven H W).handle ≠ p.2.handle then
      (List.range 2).map fun x => equalityTerms p (x + 1)
    else
      (List.range 2).map fun x =>
        if first_dof - 1 ≤ x ∧ x < last_dof then driveTerms p (x + 1) ctrl
        else equalityTerms p (x + 1)

/-! ## Element sets: `ElementSet.from_intph_image`

The image is raveled to a flat list; `np.unique` gives its distinct
values in ascending order; the set for value `v` holds the 1-based flat
indices (element ids) of the pixels equal to `v`. -/

/-- The distinct values of `flat` in ascending order (`np.unique`). -/
def uniqueSorted (flat : List ℕ) : List ℕ :=
  (List.range (flat.foldr max 0 + 1)).filter fun v => v ∈ flat

/-- Embedding of `ElementSet.from_intph_image` on the raveled image `flat`: one
`(matl_code, element ids)` pair per distinct pixel value, where the ids
are `indices[intph_img == matl_code]` with `indices = arange(1, 1 + size)`. -/
def elementSets (flat : List ℕ) : List (ℕ × List ℕ) :=
  (uniqueSorted flat).map fun v =>
    (v, ((List.range flat.length).filter fun i => flat.getD i 0 = v).map fun i => i + 1)

/-! ## Interphase classifier: `assign_intph` / `periodic_assign_intph`

`scipy.ndimage.distance_transform_edt` yields the exact Euclidean
distance from each pixel to the nearest zero (filler) pixel, and `+inf`
when there is none.  We embed the *squared* distance in `ℕ∞`
(`⊤` = no filler): for a natural threshold `t ≥ 0`,
`dist > t ↔ dist² > t²` and `dist ≠ 0 ↔ dist² ≠ 0`, so every comparison
made by `assign_intph` transfers exactly. -/

/-- Absolute difference `|a - b|` on naturals. -/
def absDiff (a b : ℕ) : ℕ := (a - b) + (b - a)

/-- Squared Euclidean distance between two pixel coordinates. -/
def sqd (p q : ℕ × ℕ) : ℕ := absDiff p.1 q.1 ^ 2 + absDiff p.2 q.2 ^ 2

/-- The filler (zero) pixels of an `(H, W)` image, in raster order. -/
def fillerList (img : ℕ → ℕ → ℕ) (H W : ℕ) : List (ℕ × ℕ) :=
  ((List.range H).flatMap fun r => (List.range W).map fun c => (r, c)).filter
    fun q => img q.1 q.2 = 0

/-- Squared distance-to-filler field (`distance_transform_edt` squared):
the minimum of `sqd p q` over filler pixels `q`, `⊤` if there are none. -/
def distSq (img : ℕ → ℕ → ℕ) (H W : ℕ) (p : ℕ × ℕ) : WithTop ℕ :=
  ((fillerList img H W).map fun q => (sqd p q : ℕ)).minimum

/-- Embedding of `assign_intph` at pixel `p`: the base label `(dists != 0).view("u1")`
plus one for each `num_layers` in `sorted(num_layers_list)` with
`dists > num_layers`, accumulated in `uint8` (hence the final `% 256`,
which equals step-by-step wrapping). -/
def assignIntph (img : ℕ → ℕ → ℕ) (H W : ℕ) (ts : List ℕ) (p : ℕ × ℕ) : ℕ :=
  let d := distSq img H W p
  (((ts.insertionSort (· ≤ ·)).foldl
      (fun acc t => acc + if ((t * t : ℕ) : WithTop ℕ) < d then 1 else 0)
      (if d ≠ 0 then 1 else 0))) % 256

/-- The tiling `np.tile(microstructure, (3, 3))`: the `(3H, 3W)` image with
`tiled[r][c] = img[r % H][c % W]`. -/
def tile3 (img : ℕ → ℕ → ℕ) (H W : ℕ) : ℕ → ℕ → ℕ :=
  fun r c => img (r % H) (c % W)

/-- Embedding of `periodic_assign_intph` at pixel `(r, c)` of the result: run
`assign_intph` on the 3×3 tiling and crop the center block
`intph_tiled[H : 2H, W : 2W]` (the `.copy()` is the identity on pure
values). -/
def periodicAssignIntph (img : ℕ → ℕ → ℕ) (H W : ℕ) (ts : List ℕ) (r c : ℕ) : ℕ :=
  assignIntph (tile3 img H W) (3 * H) (3 * W) ts (H + r, W + c)

/-! ## Viscoelastic material transformer: `ViscoelasticMaterial`

Floating-point arithmetic is modelled by exact real arithmetic over `ℝ`.
The complex array `youngs_cplx` is carried as its two component lists
`youngsRe` / `youngsIm`. -/

/-- The fields of `ViscoelasticMaterial` used by `apply_shift`,
`normalize_modulus` and the viscoelastic part of `to_inp`. -/
structure VEMat where
  freq : List ℝ
  youngsRe : List ℝ
  youngsIm : List ℝ
  poisson : ℝ
  shift : ℝ
  left_broadening : ℝ
  right_broadening : ℝ

/-- Index of the first maximum of a real list (`np.argmax`): later
entries replace the incumbent only when strictly greater. -/
noncomputable def argmaxAux (l : List ℝ) (i bi : ℕ) (bv : ℝ) : ℕ :=
  match l with
  | [] => bi
  | x :: xs => if bv < x then argmaxAux xs (i + 1) i x else argmaxAux xs (i + 1) bi bv

/-- Embedding of `np.argmax` over a real list (0 on the empty list, unused case). -/
noncomputable def argmaxIdx : List ℝ → ℕ
  | [] => 0
  | x :: xs => argmaxAux xs 1 0 x

/-- Embedding of `ViscoelasticMaterial.apply_shift`:
`freq = log10(self.freq) - self.shift`; `i = argmax(imag/real)` of the
complex modulus; `f = freq[i]`;
`freq[:i] = left_broadening * (freq[:i] - f) + f`;
`freq[i:] = right_broadening * (freq[i:] - f) + f`; return `10**freq`.
The two slice assignments on the local array are modelled as
`take i` / `drop i` re-appended. -/
noncomputable def applyShift (m : VEMat) : List ℝ :=
  let logf := m.freq.map fun x => Real.logb 10 x - m.shift
  let i := argmaxIdx (List.zipWith (fun b a => b / a) m.youngsIm m.youngsRe)
  let f := logf.getD i 0
  let shifted :=
    ((logf.take i).map fun x => m.left_broadening * (x - f) + f) ++
      ((logf.drop i).map fun x => m.right_broadening * (x - f) + f)
  shifted.map fun x => (10 : ℝ) ^ x

/-- One serialized row of the `*Viscoelastic, frequency=TABULAR` table:
`wgr, wgi, wkr, wki, f`. -/
structure VERow where
  wgr : ℝ
  wgi : ℝ
  wkr : ℝ
  wki : ℝ
  f : ℝ

/-- Rowwise zip of the five column lists (`zip` truncates to the
shortest). -/
noncomputable def mkRows : List ℝ → List ℝ → List ℝ → List ℝ → List ℝ → List VERow
  | a :: as, b :: bs, c :: cs, d :: ds, e :: es => ⟨a, b, c, d, e⟩ :: mkRows as bs cs ds es
  | _, _, _, _, _ => []

/-- The viscoelastic table written by `ViscoelasticMaterial.to_inp`:
`youngs_inf = youngs_cplx[0].real`; `real = youngs_cplx.imag / youngs_inf`;
`imag = 1 - youngs_cplx.real / youngs_inf`; rows
`zip(real, imag, real, imag, apply_shift())`. -/
noncomputable def veRows (m : VEMat) : List VERow :=
  let youngs_inf := m.youngsRe.getD 0 0
  let real := m.youngsIm.map fun x => x / youngs_inf
  let imag := m.youngsRe.map fun x => 1 - x / youngs_inf
  mkRows real imag real imag (applyShift m)

/-- Method call `apply_shift` as a state-passing call on the material record: the
method builds a fresh local array (`np.log10` allocates) and its slice
assignments hit that local array only, so the post-state equals the
pre-state and the result is `applyShift`. -/
noncomputable def applyShiftCall (m : VEMat) : VEMat × List ℝ := (m, applyShift m)

/-! ## Theorems -/

/-- Length of the serialized element list: one line per pixel. -/
theorem elemLines_length (H W : ℕ) : (elemLines H W).length = H * W := by
  induction H with
  | zero => simp [elemLines]
  | succ n ih =>
    simp only [elemLines, List.range_succ, List.flatMap_append, List.flatMap_cons,
      List.flatMap_nil, List.append_nil, List.length_append, List.length_map,
      List.length_range] at ih ⊢
    rw [ih]; ring

/-- Indexing the serialized element list at flat position `r * W + c`. -/
theorem elemLines_get (H W r c : ℕ) (hr : r < H) (hc : c < W) :
    (elemLines H W)[r * W + c]? = some (1 + r * W + c, elemRecord W r c) := by
  induction H with
  | zero => omega
  | succ n ih =>
    have hsplit : elemLines (n + 1) W =
        elemLines n W ++ (List.range W).map fun c => (1 + n * W + c, elemRecord W n c) := by
      simp [elemLines, List.range_succ]
    rcases Nat.lt_or_ge r n with h | h
    · rw [hsplit, List.getElem?_append_left]
      · exact ih h
      · rw [elemLines_length]
        have : r * W + c < (r + 1) * W := by nlinarith
        calc r * W + c < (r + 1) * W := this
          _ ≤ n * W := Nat.mul_le_mul_right W h
    · have hrn : r = n := by omega
      subst hrn
      rw [hsplit, List.getElem?_append_right]
      · rw [elemLines_length]
        simp only [List.getElem?_map, Nat.add_sub_cancel_left]
        rw [List.getElem?_range hc]
        rfl
      · rw [elemLines_length]; omega

/-- C1 (amended): the mesh builder emits exactly one quad element per
pixel `(r, c)` — `H * W` serialized lines, the line at flat position
`r * W + c` carrying element number `1 + r * W + c` — and the
connectivity record lists, position for position, the grid nodes at
`(r+1, c)`, `(r, c)`, `(r, c+1)`, `(r+1, c+1)` in that exact order
(`to_inp` writes `tn, kn, rn, trn`). -/
theorem c1_one_element_per_pixel (H W r c : ℕ) (hr : r < H) (hc : c < W) :
    (elemLines H W).length = H * W ∧
    (elemLines H W)[r * W + c]? =
      some (1 + r * W + c,
        [nodeId W (r + 1) c, nodeId W r c, nodeId W r (c + 1), nodeId W (r + 1) (c + 1)]) :=
  ⟨elemLines_length H W, elemLines_get H W r c hr hc⟩

/-- C1 witness: the theorem instantiated on a 1×1 image. -/
theorem c1_one_element_per_pixel_witness :
    0 < 1 ∧
      (elemLines 1 1).length = 1 * 1 ∧
      (elemLines 1 1)[0 * 1 + 0]? =
        some (1 + 0 * 1 + 0,
          [nodeId 1 (0 + 1) 0, nodeId 1 0 0, nodeId 1 0 (0 + 1), nodeId 1 (0 + 1) (0 + 1)]) :=
  ⟨by decide, c1_one_element_per_pixel 1 1 0 0 (by decide) (by decide)⟩

/-- C1 counterexample: on a 1×1 image, the single element's serialized
record is `[3, 1, 2, 4]`, not the claimed
`[(0,0), (1,0), (1,1), (0,1)]` order `[1, 3, 4, 2]`. -/
theorem c1_counterexample :
    ¬ (elemLines 1 1)[0]? =
        some (1, [nodeId 1 0 0, nodeId 1 1 0, nodeId 1 1 1, nodeId 1 0 1]) := by
  decide

/-- C2: with both degrees of freedom driven (`first_dof ≤ 1` and
`2 ≤ last_dof` so that `range(first_dof - 1, last_dof) ⊇ {0, 1}`), the
constraint builder constructs exactly the 3 node-set pairs
(LeftSurface, RightSurface), (BotmSurface, TopSurface),
(BotmRight, TopRight), each with 2 equations (6 total); both equations
of the pair containing the driven Right surface are 3-term equations
with coefficients `1, -1, 1` on (first, second, control node), and the
equations of the other two pairs are 2-term with coefficients `1, -1`. -/
theorem c2_pbc_equations (H W first_dof last_dof : ℕ) (ctrl : String)
    (hf : first_dof ≤ 1) (hl : 2 ≤ last_dof) :
    ((pbcNodePairs H W).map fun p => (p.1.name, p.2.name)) =
      [("LeftSurface", "RightSurface"), ("BotmSurface", "TopSurface"),
        ("BotmRight", "TopRight")] ∧
    pbcEqPairs H W first_dof last_dof ctrl =
      [[[("LeftSurface", 1, 1), ("RightSurface", 1, -1), (ctrl, 1, 1)],
        [("LeftSurface", 2, 1), ("RightSurface", 2, -1), (ctrl, 2, 1)]],
       [[("BotmSurface", 1, 1), ("TopSurface", 1, -1)],
        [("BotmSurface", 2, 1), ("TopSurface", 2, -1)]],
       [[("BotmRight", 1, 1), ("TopRight", 1, -1)],
        [("BotmRight", 2, 1), ("TopRight", 2, -1)]]] := by
  refine ⟨rfl, ?_⟩
  simp only [pbcEqPairs, pbcNodePairs, pbcDriven, driveTerms, equalityTerms,
    List.range_succ, List.range_zero, List.nil_append, List.singleton_append,
    List.map_cons, List.map_nil, ne_eq]
  norm_num
  refine ⟨⟨?_, ?_⟩, ?_, ?_⟩ <;> omega

/-- C2 witness: the theorem instantiated on a 1×1 grid with the full
dof range 1..2 driven. -/
theorem c2_pbc_equations_witness :
    (1 ≤ 1 ∧ 2 ≤ 2) ∧
      ((pbcNodePairs 1 1).map fun p => (p.1.name, p.2.name)) =
        [("LeftSurface", "RightSurface"), ("BotmSurface", "TopSurface"),
          ("BotmRight", "TopRight")] ∧
      pbcEqPairs 1 1 1 2 "VIRTUAL" =
        [[[("LeftSurface", 1, 1), ("RightSurface", 1, -1), ("VIRTUAL", 1, 1)],
          [("LeftSurface", 2, 1), ("RightSurface", 2, -1), ("VIRTUAL", 2, 1)]],
         [[("BotmSurface", 1, 1), ("TopSurface", 1, -1)],
          [("BotmSurface", 2, 1), ("TopSurface", 2, -1)]],
         [[("BotmRight", 1, 1), ("TopRight", 1, -1)],
          [("BotmRight", 2, 1), ("TopRight", 2, -1)]]] :=
  ⟨⟨le_refl 1, le_refl 2⟩, c2_pbc_equations 1 1 1 2 "VIRTUAL" (le_refl 1) (le_refl 2)⟩

/-- Computed form of the Left surface node ids. -/
theorem nsetInds_left (H W : ℕ) :
    nsetInds "LeftSurface" H W = (List.range (H + 1)).map fun r => nodeId W r 0 := by
  simp [nsetInds, sideCells]

/-- Computed form of the Right surface node ids. -/
theorem nsetInds_right (H W : ℕ) :
    nsetInds "RightSurface" H W = (List.range (H + 1)).map fun r => nodeId W r W := by
  simp [nsetInds, sideCells]

/-- Computed form of the Botm surface node ids. -/
theorem nsetInds_botm (H W : ℕ) :
    nsetInds "BotmSurface" H W = (List.range' 1 (W - 1)).map fun c => nodeId W 0 c := by
  simp [nsetInds, sideCells]

/-- Computed form of the Top surface node ids. -/
theorem nsetInds_top (H W : ℕ) :
    nsetInds "TopSurface" H W = (List.range' 1 (W - 1)).map fun c => nodeId W H c := by
  simp [nsetInds, sideCells]

/-- Raster node ids are injective on in-range columns. -/
theorem nodeId_inj (W r c r' c' : ℕ) (hc : c ≤ W) (hc' : c' ≤ W)
    (h : nodeId W r c = nodeId W r' c') : r = r' ∧ c = c' := by
  unfold nodeId at h
  have h' : r * (W + 1) + c = r' * (W + 1) + c' := by omega
  have hdiv : ∀ a b : ℕ, b ≤ W → (a * (W + 1) + b) / (W + 1) = a := by
    intro a b hb
    rw [Nat.mul_comm a (W + 1), Nat.mul_add_div (by omega), Nat.div_eq_of_lt (by omega)]
    omega
  have hr : r = r' := by
    have h1 := hdiv r c hc
    have h2 := hdiv r' c' hc'
    rw [h'] at h1
    omega
  subst hr
  exact ⟨rfl, by omega⟩

/-- The four edge node-set lists (Left, Right, Botm, Top). -/
def edgeLists (H W : ℕ) : List (List ℕ) :=
  [nsetInds "LeftSurface" H W, nsetInds "RightSurface" H W,
   nsetInds "BotmSurface" H W, nsetInds "TopSurface" H W]

/-- Membership in the Left surface list. -/
theorem mem_left_iff (H W r c : ℕ) (hc : c ≤ W) :
    nodeId W r c ∈ nsetInds "LeftSurface" H W ↔ r ≤ H ∧ c = 0 := by
  rw [nsetInds_left]
  simp only [List.mem_map, List.mem_range]
  constructor
  · rintro ⟨a, ha, h⟩
    obtain ⟨rfl, rfl⟩ := nodeId_inj W a 0 r c (by omega) hc h
    exact ⟨by omega, rfl⟩
  · rintro ⟨hr, rfl⟩
    exact ⟨r, by omega, rfl⟩

/-- Membership in the Right surface list. -/
theorem mem_right_iff (H W r c : ℕ) (hc : c ≤ W) :
    nodeId W r c ∈ nsetInds "RightSurface" H W ↔ r ≤ H ∧ c = W := by
  rw [nsetInds_right]
  simp only [List.mem_map, List.mem_range]
  constructor
  · rintro ⟨a, ha, h⟩
    obtain ⟨rfl, rfl⟩ := nodeId_inj W a W r c (by omega) hc h
    exact ⟨by omega, rfl⟩
  · rintro ⟨hr, rfl⟩
    exact ⟨r, by omega, rfl⟩

/-- Membership in the Botm surface list. -/
theorem mem_botm_iff (H W r c : ℕ) (hc : c ≤ W) :
    nodeId W r c ∈ nsetInds "BotmSurface" H W ↔ r = 0 ∧ 1 ≤ c ∧ c ≤ W - 1 := by
  rw [nsetInds_botm]
  simp only [List.mem_map, List.mem_range'_1]
  constructor
  · rintro ⟨a, ha, h⟩
    obtain ⟨rfl, rfl⟩ := nodeId_inj W 0 a r c (by omega) hc h
    exact ⟨rfl, by omega, by omega⟩
  · rintro ⟨rfl, hc1, hc2⟩
    exact ⟨c, by omega, rfl⟩

/-- Membership in the Top surface list. -/
theorem mem_top_iff (H W r c : ℕ) (hc : c ≤ W) :
    nodeId W r c ∈ nsetInds "TopSurface" H W ↔ r = H ∧ 1 ≤ c ∧ c ≤ W - 1 := by
  rw [nsetInds_top]
  simp only [List.mem_map, List.mem_range'_1]
  constructor
  · rintro ⟨a, ha, h⟩
    obtain ⟨rfl, rfl⟩ := nodeId_inj W H a r c (by omega) hc h
    exact ⟨rfl, by omega, by omega⟩
  · rintro ⟨rfl, hc1, hc2⟩
    exact ⟨c, by omega, rfl⟩

/-- In how many of the four edge sets does the corner `(r, c)` lie. -/
theorem edge_count_corner (H W r c : ℕ) (hH : 1 ≤ H) (hW : 1 ≤ W) (hc : c ≤ W)
    (hcorner : (r = 0 ∨ r = H) ∧ (c = 0 ∨ c = W)) :
    ((edgeLists H W).countP fun s => decide (nodeId W r c ∈ s)) = 1 := by
  have hB : ¬ nodeId W r c ∈ nsetInds "BotmSurface" H W := by
    intro h
    have := (mem_botm_iff H W r c hc).mp h
    omega
  have hT : ¬ nodeId W r c ∈ nsetInds "TopSurface" H W := by
    intro h
    have := (mem_top_iff H W r c hc).mp h
    omega
  rcases hcorner.2 with h0 | hWc
  · have hL : nodeId W r c ∈ nsetInds "LeftSurface" H W :=
      (mem_left_iff H W r c hc).mpr ⟨by rcases hcorner.1 with h | h <;> omega, h0⟩
    have hR : ¬ nodeId W r c ∈ nsetInds "RightSurface" H W := by
      intro h
      have := (mem_right_iff H W r c hc).mp h
      omega
    simp [edgeLists, List.countP_cons, hL, hR, hB, hT]
  · have hR : nodeId W r c ∈ nsetInds "RightSurface" H W :=
      (mem_right_iff H W r c hc).mpr ⟨by rcases hcorner.1 with h | h <;> omega, hWc⟩
    have hL : ¬ nodeId W r c ∈ nsetInds "LeftSurface" H W := by
      intro h
      have := (mem_left_iff H W r c hc).mp h
      omega
    simp [edgeLists, List.countP_cons, hL, hR, hB, hT]

/-- C8 (amended): for a node grid of shape `(H+1) × (W+1)` with
`1 ≤ H`, `1 ≤ W`, the Left and Right node sets are exactly the `H + 1`
node ids of column `0` resp. column `W` in raster (row) order, each of
the four corner sets is the expected singleton, and each corner node is
a member of exactly **one** edge set (its Left or Right surface; the
Botm and Top surface slices `[0, 1:-1]` / `[-1, 1:-1]` exclude the
corner columns). -/
theorem c8_node_sets (H W : ℕ) (hH : 1 ≤ H) (hW : 1 ≤ W) :
    (nsetInds "LeftSurface" H W = (List.range (H + 1)).map fun r => nodeId W r 0) ∧
    (nsetInds "RightSurface" H W = (List.range (H + 1)).map fun r => nodeId W r W) ∧
    (nsetInds "LeftSurface" H W).length = H + 1 ∧
    (nsetInds "RightSurface" H W).length = H + 1 ∧
    nsetInds "BotmLeft" H W = [nodeId W 0 0] ∧
    nsetInds "TopLeft" H W = [nodeId W H 0] ∧
    nsetInds "BotmRight" H W = [nodeId W 0 W] ∧
    nsetInds "TopRight" H W = [nodeId W H W] ∧
    ((edgeLists H W).countP fun s => decide (nodeId W 0 0 ∈ s)) = 1 ∧
    ((edgeLists H W).countP fun s => decide (nodeId W H 0 ∈ s)) = 1 ∧
    ((edgeLists H W).countP fun s => decide (nodeId W 0 W ∈ s)) = 1 ∧
    ((edgeLists H W).countP fun s => decide (nodeId W H W ∈ s)) = 1 :=
  ⟨nsetInds_left H W, nsetInds_right H W,
    by rw [nsetInds_left]; simp,
    by rw [nsetInds_right]; simp,
    by simp [nsetInds, sideCells],
    by simp [nsetInds, sideCells],
    by simp [nsetInds, sideCells],
    by simp [nsetInds, sideCells],
    edge_count_corner H W 0 0 hH hW (by omega) ⟨Or.inl rfl, Or.inl rfl⟩,
    edge_count_corner H W H 0 hH hW (by omega) ⟨Or.inr rfl, Or.inl rfl⟩,
    edge_count_corner H W 0 W hH hW (by omega) ⟨Or.inl rfl, Or.inr rfl⟩,
    edge_count_corner H W H W hH hW (by omega) ⟨Or.inr rfl, Or.inr rfl⟩⟩

/-- C8 witness: the theorem instantiated on a 1×1 image (2×2 node grid). -/
theorem c8_node_sets_witness :
    (1 ≤ 1 ∧ 1 ≤ 1) ∧
      ((nsetInds "LeftSurface" 1 1 = (List.range 2).map fun r => nodeId 1 r 0) ∧
        (nsetInds "RightSurface" 1 1 = (List.range 2).map fun r => nodeId 1 r 1) ∧
        (nsetInds "LeftSurface" 1 1).length = 2 ∧
        (nsetInds "RightSurface" 1 1).length = 2 ∧
        nsetInds "BotmLeft" 1 1 = [nodeId 1 0 0] ∧
        nsetInds "TopLeft" 1 1 = [nodeId 1 1 0] ∧
        nsetInds "BotmRight" 1 1 = [nodeId 1 0 1] ∧
        nsetInds "TopRight" 1 1 = [nodeId 1 1 1] ∧
        ((edgeLists 1 1).countP fun s => decide (nodeId 1 0 0 ∈ s)) = 1 ∧
        ((edgeLists 1 1).countP fun s => decide (nodeId 1 1 0 ∈ s)) = 1 ∧
        ((edgeLists 1 1).countP fun s => decide (nodeId 1 0 1 ∈ s)) = 1 ∧
        ((edgeLists 1 1).countP fun s => decide (nodeId 1 1 1 ∈ s)) = 1) :=
  ⟨⟨le_refl 1, le_refl 1⟩, c8_node_sets 1 1 (le_refl 1) (le_refl 1)⟩

/-- C8 counterexample: on the 2×2 node grid the BotmLeft corner node is
a member of exactly one edge set, not two — the Botm and Top surface
slices exclude the corner columns. -/
theorem c8_counterexample :
    ¬ ((edgeLists 1 1).countP fun s => decide (nodeId 1 0 0 ∈ s)) = 2 := by
  decide

/-- Every entry of a list of naturals is bounded by its `foldr max 0`. -/
theorem le_foldr_max (flat : List ℕ) : ∀ v ∈ flat, v ≤ flat.foldr max 0 := by
  induction flat with
  | nil => intro v h; cases h
  | cons x xs ih =>
    intro v h
    rcases List.mem_cons.mp h with rfl | h
    · exact le_max_left _ _
    · exact le_trans (ih v h) (le_max_right _ _)

/-- Membership in `uniqueSorted` is exactly occurrence in the list. -/
theorem mem_uniqueSorted (flat : List ℕ) (v : ℕ) : v ∈ uniqueSorted flat ↔ v ∈ flat := by
  simp only [uniqueSorted, List.mem_filter, List.mem_range, decide_eq_true_eq]
  exact ⟨fun h => h.2, fun h => ⟨Nat.lt_succ_of_le (le_foldr_max flat v h), h⟩⟩

/-- The list `uniqueSorted flat` is strictly ascending. -/
theorem uniqueSorted_pairwise (flat : List ℕ) : (uniqueSorted flat).Pairwise (· < ·) :=
  (List.pairwise_lt_range _).sublist (List.filter_sublist _)

/-- Membership of element id `i + 1` in the id list built for value `v`. -/
theorem mem_elementIds (flat : List ℕ) (v i : ℕ) :
    (i + 1) ∈ (((List.range flat.length).filter fun j => flat.getD j 0 = v).map fun j => j + 1)
      ↔ i < flat.length ∧ flat.getD i 0 = v := by
  simp only [List.mem_map, List.mem_filter, List.mem_range, decide_eq_true_eq]
  constructor
  · rintro ⟨a, ⟨ha, hav⟩, h⟩
    have : a = i := by omega
    subst this
    exact ⟨ha, hav⟩
  · rintro ⟨hi, hv⟩
    exact ⟨i, ⟨hi, hv⟩, rfl⟩

/-- Counting, over a list of `(value, ids)` pairs built by `map`, the
pairs whose id list contains `x`. -/
theorem countP_mem_map_pair (u : List ℕ) (f : ℕ → List ℕ) (x : ℕ) :
    ((u.map fun v => (v, f v)).countP fun s => decide (x ∈ s.2)) =
      u.countP fun v => decide (x ∈ f v) := by
  induction u with
  | nil => rfl
  | cons a as ih => simp [List.countP_cons, ih]

/-- C9: the element sets built from a phase-label image partition the
element ids `1 .. H·W`: each element id `i + 1` (for `i < size`) lies in
exactly one returned set, and only in the set whose material code is
that pixel's label; no returned set is empty; and the sets are ordered
by strictly increasing material code. -/
theorem c9_element_sets_partition (flat : List ℕ) :
    (∀ i, i < flat.length →
      ((elementSets flat).countP fun s => decide ((i + 1) ∈ s.2)) = 1 ∧
      ∀ s ∈ elementSets flat, (i + 1) ∈ s.2 → s.1 = flat.getD i 0) ∧
    (∀ s ∈ elementSets flat, s.2 ≠ []) ∧
    ((elementSets flat).map Prod.fst).Pairwise (· < ·) := by
  refine ⟨fun i hi => ⟨?_, ?_⟩, ?_, ?_⟩
  · rw [elementSets, countP_mem_map_pair]
    have hcongr := List.countP_congr (l := uniqueSorted flat)
      (p := fun v => decide ((i + 1) ∈ (((List.range flat.length).filter
        fun j => flat.getD j 0 = v).map fun j => j + 1)))
      (q := fun v => v == flat.getD i 0)
      (fun v _ => by
        simp only [decide_eq_true_eq, beq_iff_eq, mem_elementIds]
        constructor
        · rintro ⟨_, h⟩; exact h.symm
        · rintro rfl; exact ⟨hi, rfl⟩)
    rw [hcongr]
    have hnodup : (uniqueSorted flat).Nodup :=
      (uniqueSorted_pairwise flat).imp Nat.ne_of_lt
    have hmem : flat.getD i 0 ∈ uniqueSorted flat := by
      rw [mem_uniqueSorted]
      rw [List.getD_eq_getElem flat 0 hi]
      exact List.getElem_mem hi
    exact List.count_eq_one_of_mem hnodup hmem
  · intro s hs h
    rw [elementSets, List.mem_map] at hs
    obtain ⟨v, _, rfl⟩ := hs
    exact ((mem_elementIds flat v i).mp h).2.symm
  · intro s hs
    rw [elementSets, List.mem_map] at hs
    obtain ⟨v, hv, rfl⟩ := hs
    rw [mem_uniqueSorted] at hv
    obtain ⟨j, hj, hjv⟩ := List.mem_iff_getElem.mp hv
    refine List.ne_nil_of_mem (a := j + 1) ?_
    rw [mem_elementIds]
    exact ⟨hj, by rw [List.getD_eq_getElem flat 0 hj]; exact hjv⟩
  · have : (elementSets flat).map Prod.fst = uniqueSorted flat := by
      rw [elementSets, List.map_map]
      exact List.map_id'' (fun _ => rfl) _
    rw [this]
    exact uniqueSorted_pairwise flat

/-- C9 witness: partition property instantiated on the raveled image
`[0, 1, 1, 2]`. -/
theorem c9_element_sets_partition_witness :
    0 < 4 ∧ ((elementSets [0, 1, 1, 2]).countP fun s => decide ((0 + 1) ∈ s.2)) = 1 :=
  ⟨by decide, ((c9_element_sets_partition [0, 1, 1, 2]).1 0 (by decide)).1⟩

/-- Membership in the filler pixel list. -/
theorem mem_fillerList (img : ℕ → ℕ → ℕ) (H W : ℕ) (q : ℕ × ℕ) :
    q ∈ fillerList img H W ↔ q.1 < H ∧ q.2 < W ∧ img q.1 q.2 = 0 := by
  cases q with
  | mk a b =>
    simp only [fillerList, List.mem_filter, List.mem_flatMap, List.mem_map, List.mem_range,
      decide_eq_true_eq]
    constructor
    · rintro ⟨⟨r, hr, c, hc, h⟩, hz⟩
      cases h
      exact ⟨hr, hc, hz⟩
    · rintro ⟨ha, hb, hz⟩
      exact ⟨⟨a, ha, b, hb, rfl⟩, hz⟩

/-- Squared distance `sqd p q` vanishes exactly at `q = p`. -/
theorem sqd_eq_zero_iff (p q : ℕ × ℕ) : sqd p q = 0 ↔ p = q := by
  cases p with
  | mk a b =>
    cases q with
    | mk c d =>
      simp only [sqd, absDiff, Prod.mk.injEq]
      constructor
      · intro h
        have h1 : (a - c + (c - a)) ^ 2 = 0 := by omega
        have h2 : (b - d + (d - b)) ^ 2 = 0 := by omega
        have h1' : a - c + (c - a) = 0 := by
          exact pow_eq_zero_iff (two_ne_zero) |>.mp h1
        have h2' : b - d + (d - b) = 0 := by
          exact pow_eq_zero_iff (two_ne_zero) |>.mp h2
        exact ⟨by omega, by omega⟩
      · rintro ⟨rfl, rfl⟩
        simp

/-- In `WithTop ℕ`, bounded above by zero means equal to zero. -/
theorem wtop_le_zero (a : WithTop ℕ) (h : a ≤ 0) : a = 0 :=
  le_antisymm h (zero_le a)

/-- The squared distance field vanishes exactly on filler pixels
(for in-range pixels; the reverse implication is unconditional). -/
theorem distSq_eq_zero_iff (img : ℕ → ℕ → ℕ) (H W r c : ℕ) (hr : r < H) (hc : c < W) :
    distSq img H W (r, c) = 0 ↔ img r c = 0 := by
  constructor
  · intro h
    have h' : ((fillerList img H W).map fun q => (sqd (r, c) q : ℕ)).minimum =
        ((0 : ℕ) : WithTop ℕ) := h
    obtain ⟨h0, -⟩ := List.minimum_eq_coe_iff.mp h'
    obtain ⟨q, hq, hq0⟩ := List.mem_map.mp h0
    have heq : q = (r, c) := ((sqd_eq_zero_iff (r, c) q).mp hq0).symm
    subst heq
    exact ((mem_fillerList img H W _).mp hq).2.2
  · intro h
    have hmem : (r, c) ∈ fillerList img H W := (mem_fillerList img H W (r, c)).mpr ⟨hr, hc, h⟩
    have h0 : (0 : ℕ) ∈ (fillerList img H W).map fun q => sqd (r, c) q := by
      rw [List.mem_map]
      exact ⟨(r, c), hmem, (sqd_eq_zero_iff (r, c) (r, c)).mpr rfl⟩
    have hle : distSq img H W (r, c) ≤ ((0 : ℕ) : WithTop ℕ) :=
      List.minimum_le_of_mem' h0
    exact wtop_le_zero _ (by simpa using hle)

/-- Folding the threshold indicators equals the base plus a `countP`. -/
theorem foldl_indicator (d : WithTop ℕ) (l : List ℕ) (init : ℕ) :
    l.foldl (fun acc t => acc + if ((t * t : ℕ) : WithTop ℕ) < d then 1 else 0) init =
      init + l.countP fun t => decide (((t * t : ℕ) : WithTop ℕ) < d) := by
  induction l generalizing init with
  | nil => simp
  | cons x xs ih =>
    rw [List.foldl_cons, ih, List.countP_cons]
    by_cases h : ((x * x : ℕ) : WithTop ℕ) < d <;> simp [h] <;> omega

/-- Closed form of `assign_intph`: base indicator plus threshold count,
wrapped to `uint8`. -/
theorem assignIntph_eq (img : ℕ → ℕ → ℕ) (H W : ℕ) (ts : List ℕ) (p : ℕ × ℕ) :
    assignIntph img H W ts p =
      ((if distSq img H W p ≠ 0 then 1 else 0) +
        ts.countP fun t => decide (((t * t : ℕ) : WithTop ℕ) < distSq img H W p)) % 256 := by
  rw [assignIntph]
  rw [foldl_indicator]
  rw [(List.perm_insertionSort (· ≤ ·) ts).countP_eq]

/-- C3 (amended): with at least one filler pixel, positive thicknesses
and at most 254 of them (the label is accumulated in `uint8`), the
classifier's label at each in-range pixel is `0` on filler pixels and
otherwise `1` plus the number of thicknesses strictly exceeded by the
pixel's distance to the nearest filler (`t < dist ↔ t² < dist²`); all
labels lie in `{0, …, k+1}` for `k` thicknesses; and the label is
non-decreasing in the distance-to-filler. -/
theorem c3_classifier (img : ℕ → ℕ → ℕ) (H W : ℕ) (ts : List ℕ)
    (hfil : fillerList img H W ≠ [])
    (hpos : ∀ t ∈ ts, 0 < t)
    (hk : ts.length ≤ 254) :
    (∀ r, r < H → ∀ c, c < W →
      assignIntph img H W ts (r, c) =
        if img r c = 0 then 0
        else 1 + ts.countP fun t =>
          decide (((t * t : ℕ) : WithTop ℕ) < distSq img H W (r, c))) ∧
    (∀ r, r < H → ∀ c, c < W → assignIntph img H W ts (r, c) ≤ ts.length + 1) ∧
    (∀ p q : ℕ × ℕ, distSq img H W p ≤ distSq img H W q →
      assignIntph img H W ts p ≤ assignIntph img H W ts q) := by
  have hcount : ∀ p : ℕ × ℕ,
      (ts.countP fun t => decide (((t * t : ℕ) : WithTop ℕ) < distSq img H W p)) ≤
        ts.length := fun p => List.countP_le_length _
  have hmain : ∀ r, r < H → ∀ c, c < W →
      assignIntph img H W ts (r, c) =
        if img r c = 0 then 0
        else 1 + ts.countP fun t =>
          decide (((t * t : ℕ) : WithTop ℕ) < distSq img H W (r, c)) := by
    intro r hr c hc
    rw [assignIntph_eq]
    by_cases h : img r c = 0
    · have hd : distSq img H W (r, c) = 0 := (distSq_eq_zero_iff img H W r c hr hc).mpr h
      have hct : (ts.countP fun t =>
          decide (((t * t : ℕ) : WithTop ℕ) < distSq img H W (r, c))) = 0 := by
        rw [List.countP_eq_zero]
        intro t _
        rw [hd]
        simp
      rw [hct, hd, if_pos h]
      simp
    · have hd : distSq img H W (r, c) ≠ 0 := by
        intro h0
        exact h ((distSq_eq_zero_iff img H W r c hr hc).mp h0)
      rw [if_pos hd, if_neg h]
      exact Nat.mod_eq_of_lt (by have := hcount (r, c); omega)
  refine ⟨hmain, fun r hr c hc => ?_, fun p q hle => ?_⟩
  · rw [hmain r hr c hc]
    by_cases h : img r c = 0
    · simp [h]
    · rw [if_neg h]
      have := hcount (r, c)
      omega
  · rw [assignIntph_eq, assignIntph_eq]
    have hbase : (if distSq img H W p ≠ 0 then (1 : ℕ) else 0) ≤
        (if distSq img H W q ≠ 0 then (1 : ℕ) else 0) := by
      by_cases hp : distSq img H W p = 0
      · simp [hp]
      · have hq : distSq img H W q ≠ 0 := by
          intro h0
          exact hp (wtop_le_zero _ (h0 ▸ hle))
        simp [hp, hq]
    have hcnt : (ts.countP fun t => decide (((t * t : ℕ) : WithTop ℕ) < distSq img H W p)) ≤
        ts.countP fun t => decide (((t * t : ℕ) : WithTop ℕ) < distSq img H W q) := by
      apply List.countP_mono_left
      intro t _
      simp only [decide_eq_true_eq]
      intro h
      exact lt_of_lt_of_le h hle
    have h1 := hcount p
    have h2 := hcount q
    have hb1 : (if distSq img H W p ≠ 0 then (1 : ℕ) else 0) ≤ 1 := by split <;> omega
    have hb2 : (if distSq img H W q ≠ 0 then (1 : ℕ) else 0) ≤ 1 := by split <;> omega
    rw [Nat.mod_eq_of_lt (by omega), Nat.mod_eq_of_lt (by omega)]
    omega

/-- C3 witness: the theorem instantiated on the 1×3 image `[0, 1, 1]`
with thickness list `[1]`. -/
theorem c3_classifier_witness :
    (fillerList (fun _ c => if c = 0 then 0 else 1) 1 3 ≠ [] ∧
      (∀ t ∈ [1], 0 < t) ∧ [1].length ≤ 254) ∧
    ((∀ r, r < 1 → ∀ c, c < 3 →
      assignIntph (fun _ c => if c = 0 then 0 else 1) 1 3 [1] (r, c) =
        if (if c = 0 then 0 else 1) = 0 then 0
        else 1 + [1].countP fun t =>
          decide (((t * t : ℕ) : WithTop ℕ) <
            distSq (fun _ c => if c = 0 then 0 else 1) 1 3 (r, c))) ∧
    (∀ r, r < 1 → ∀ c, c < 3 →
      assignIntph (fun _ c => if c = 0 then 0 else 1) 1 3 [1] (r, c) ≤ [1].length + 1) ∧
    (∀ p q : ℕ × ℕ,
      distSq (fun _ c => if c = 0 then 0 else 1) 1 3 p ≤
          distSq (fun _ c => if c = 0 then 0 else 1) 1 3 q →
        assignIntph (fun _ c => if c = 0 then 0 else 1) 1 3 [1] p ≤
          assignIntph (fun _ c => if c = 0 then 0 else 1) 1 3 [1] q)) :=
  ⟨⟨by decide, by decide, by decide⟩,
    c3_classifier (fun _ c => if c = 0 then 0 else 1) 1 3 [1]
      (by decide) (by decide) (by decide)⟩

/-- C3 counterexample: on the 1×3 image `[0, 1, 1]` with the single
thickness `[1]` (`k = 1`), the pixel at distance 2 gets label `2`, so the
label set is not contained in `{0, …, k}`. -/
theorem c3_counterexample :
    ¬ (∀ r, r < 1 → ∀ c, c < 3 →
        assignIntph (fun _ c => if c = 0 then 0 else 1) 1 3 [1] (r, c) ≤ 1) := by
  decide

/-- C4: if the 3×3 tiling induces, on the center block, the same
squared distance-to-filler field as the image itself, the periodic
classifier returns exactly the non-periodic classifier's labels.  The
label at a pixel is a function of the distance field alone, so equal
fields give equal labels. -/
theorem c4_periodic_refines_plain (img : ℕ → ℕ → ℕ) (H W : ℕ) (ts : List ℕ)
    (hper : ∀ r, r < H → ∀ c, c < W →
      distSq (tile3 img H W) (3 * H) (3 * W) (H + r, W + c) = distSq img H W (r, c)) :
    ∀ r, r < H → ∀ c, c < W →
      periodicAssignIntph img H W ts r c = assignIntph img H W ts (r, c) := by
  intro r hr c hc
  rw [periodicAssignIntph, assignIntph_eq, assignIntph_eq, hper r hr c hc]

/-- C4 witness: the all-filler 1×1 image is periodic at its boundary,
and the two classifiers agree on it. -/
theorem c4_periodic_refines_plain_witness :
    (∀ r, r < 1 → ∀ c, c < 1 →
      distSq (tile3 (fun _ _ => 0) 1 1) (3 * 1) (3 * 1) (1 + r, 1 + c) =
        distSq (fun _ _ => 0) 1 1 (r, c)) ∧
    (∀ r, r < 1 → ∀ c, c < 1 →
      periodicAssignIntph (fun _ _ => 0) 1 1 [1] r c =
        assignIntph (fun _ _ => 0) 1 1 [1] (r, c)) :=
  ⟨by decide, c4_periodic_refines_plain (fun _ _ => 0) 1 1 [1] (by decide)⟩

/-- C7: the periodic classifier's result at `(r, c)` is, by
construction, the non-periodic classifier applied to the 3×3 tiling,
read at the center-block pixel `(H + r, W + c)` (rows `H .. 2H-1`,
columns `W .. 2W-1`); the trailing `.copy()` of the source is the
identity on values. -/
theorem c7_periodic_is_cropped_tiling (img : ℕ → ℕ → ℕ) (H W : ℕ) (ts : List ℕ) (r c : ℕ) :
    periodicAssignIntph img H W ts r c =
      assignIntph (tile3 img H W) (3 * H) (3 * W) ts (H + r, W + c) := rfl

/-- The shift/broadening transform preserves the number of samples. -/
theorem applyShift_length (m : VEMat) : (applyShift m).length = m.freq.length := by
  simp only [applyShift, List.length_map, List.length_append, List.length_take,
    List.length_drop]
  omega

/-- C6: with `shift = 0` and both broadening factors `1`, the
shift/broadening transform is the identity on a positive (ascending)
frequency array: `10 ^ (log10 f - 0)` recovers each `f`, and the two
affine segment maps collapse to the identity. -/
theorem c6_shift_identity (m : VEMat) (hsort : m.freq.Sorted (· ≤ ·))
    (hpos : ∀ x ∈ m.freq, 0 < x) (hs : m.shift = 0) (hl : m.left_broadening = 1)
    (hr : m.right_broadening = 1) : applyShift m = m.freq := by
  have hmap1 : ∀ (l : List ℝ) (f0 : ℝ), (l.map fun x => (1 : ℝ) * (x - f0) + f0) = l := by
    intro l f0
    apply List.map_id''
    intro x
    ring
  simp only [applyShift, hs, hl, hr, sub_zero, hmap1, List.take_append_drop, List.map_map]
  have hid : ∀ l : List ℝ, (∀ x ∈ l, 0 < x) →
      (l.map fun x => (10 : ℝ) ^ Real.logb 10 x) = l := by
    intro l hl'
    induction l with
    | nil => rfl
    | cons a as ih =>
      rw [List.map_cons,
        Real.rpow_logb (by norm_num) (by norm_num) (hl' a (List.mem_cons_self a as)),
        ih fun x hx => hl' x (List.mem_cons_of_mem a hx)]
  exact hid m.freq hpos

/-- C6 witness: the theorem instantiated on the one-sample material
`freq = [1]`. -/
theorem c6_shift_identity_witness :
    ([(1 : ℝ)].Sorted (· ≤ ·) ∧ (∀ x ∈ [(1 : ℝ)], 0 < x)) ∧
      applyShift ⟨[1], [1], [1], 0, 0, 1, 1⟩ = [(1 : ℝ)] :=
  ⟨⟨by simp, by norm_num⟩,
    c6_shift_identity ⟨[1], [1], [1], 0, 0, 1, 1⟩ (by simp) (by norm_num) rfl rfl rfl⟩

/-- Rows zipped from the same two column lists in positions 1/3 and 2/4
have equal shear and bulk columns. -/
theorem mkRows_shear_eq_bulk :
    ∀ (a b e : List ℝ), ∀ row ∈ mkRows a b a b e, row.wkr = row.wgr ∧ row.wki = row.wgi := by
  intro a
  induction a with
  | nil =>
    intro b e row h
    simp [mkRows] at h
  | cons x xs ih =>
    intro b e row h
    cases b with
    | nil => simp [mkRows] at h
    | cons y ys =>
      cases e with
      | nil => simp [mkRows] at h
      | cons z zs =>
        simp only [mkRows] at h
        rcases List.mem_cons.mp h with rfl | h'
        · exact ⟨rfl, rfl⟩
        · exact ih ys zs row h'

/-- C5: for a nonempty frequency-ascending table, the first serialized
row of the viscoelastic table has normalized real-complement column
`1 - Re(E*[0]) / Re(E*[0]) = 0` and normalized imaginary column
`Im(E*[0]) / Re(E*[0])`; and in every row the shear columns equal the
bulk columns exactly (`to_inp` zips the same two lists twice). -/
theorem c5_normalized_table (m : VEMat)
    (hsort : m.freq.Sorted (· ≤ ·))
    (hfr : m.freq ≠ []) (hre : m.youngsRe ≠ []) (him : m.youngsIm ≠ [])
    (hinf : m.youngsRe.getD 0 0 ≠ 0) :
    (∃ row rest, veRows m = row :: rest ∧
      row.wgi = 1 - m.youngsRe.getD 0 0 / m.youngsRe.getD 0 0 ∧
      row.wgi = 0 ∧
      row.wgr = m.youngsIm.getD 0 0 / m.youngsRe.getD 0 0) ∧
    (∀ row ∈ veRows m, row.wkr = row.wgr ∧ row.wki = row.wgi) := by
  obtain ⟨r0, rtl, hre'⟩ := List.exists_cons_of_ne_nil hre
  obtain ⟨i0, itl, him'⟩ := List.exists_cons_of_ne_nil him
  have hlen : applyShift m ≠ [] := by
    intro hnil
    apply hfr
    have := applyShift_length m
    rw [hnil] at this
    exact List.eq_nil_of_length_eq_zero this.symm
  obtain ⟨f0, ftl, hf'⟩ := List.exists_cons_of_ne_nil hlen
  have hr0 : r0 ≠ 0 := by
    rwa [hre', List.getD_cons_zero] at hinf
  have hrows : veRows m =
      ⟨i0 / r0, 1 - r0 / r0, i0 / r0, 1 - r0 / r0, f0⟩ ::
        mkRows (itl.map fun x => x / r0) (rtl.map fun x => 1 - x / r0)
          (itl.map fun x => x / r0) (rtl.map fun x => 1 - x / r0) ftl := by
    simp only [veRows, hre', him', hf', List.getD_cons_zero, List.map_cons, mkRows]
  refine ⟨⟨_, _, hrows, ?_, ?_, ?_⟩, ?_⟩
  · rw [hre', List.getD_cons_zero]
  · rw [div_self hr0]
    ring
  · rw [hre', him', List.getD_cons_zero, List.getD_cons_zero]
  · intro row h
    exact mkRows_shear_eq_bulk _ _ _ row h

/-- C5 witness: the theorem instantiated on a one-sample material with
`E*[0] = 2 + 3i`. -/
theorem c5_normalized_table_witness :
    ([(1 : ℝ)].Sorted (· ≤ ·) ∧ ([(1 : ℝ)] ≠ []) ∧ ([(2 : ℝ)] ≠ []) ∧ ([(3 : ℝ)] ≠ []) ∧
      ([(2 : ℝ)].getD 0 0 ≠ 0)) ∧
    ((∃ row rest, veRows ⟨[1], [2], [3], 0, 0, 1, 1⟩ = row :: rest ∧
      row.wgi = 1 - [(2 : ℝ)].getD 0 0 / [(2 : ℝ)].getD 0 0 ∧
      row.wgi = 0 ∧
      row.wgr = [(3 : ℝ)].getD 0 0 / [(2 : ℝ)].getD 0 0) ∧
    (∀ row ∈ veRows ⟨[1], [2], [3], 0, 0, 1, 1⟩, row.wkr = row.wgr ∧ row.wki = row.wgi)) :=
  ⟨⟨by simp, by simp, by simp, by simp, by norm_num⟩,
    c5_normalized_table ⟨[1], [2], [3], 0, 0, 1, 1⟩ (by simp) (by simp) (by simp) (by simp)
      (by norm_num)⟩

/-- C10: the shift/broadening call does not mutate the material record
(the method's slice assignments hit a freshly allocated local array
only), and a second call on the post-state returns the same result. -/
theorem c10_apply_shift_is_pure (m : VEMat) :
    (applyShiftCall m).1.freq = m.freq ∧
    (applyShiftCall m).1.youngsRe = m.youngsRe ∧
    (applyShiftCall m).1.youngsIm = m.youngsIm ∧
    (applyShiftCall ((applyShiftCall m).1)).2 = (applyShiftCall m).2 :=
  ⟨rfl, rfl, rfl, rfl⟩

end MicroVE